import Mathlib

/-!
# Verification of the `SmartCache` adaptive cache

A shallow embedding of the `SmartCache` class (src/unnamed/part_005) of the
Advanced-dev-utils repository, together with proofs of the testable
properties stated in the design document.

Modelling conventions:

* The JavaScript `Map<string, _>` is modelled as an insertion-ordered
  association list `List (String × _)`.  `Map.set` on an existing key keeps
  the binding's position and replaces the value; on a fresh key it appends.
  `Map.delete` removes the binding.  The well-formedness invariant
  `SmartCache.WF` (keys are pairwise distinct) mirrors `Map`'s key
  uniqueness.
* `Date.now()` is modelled by an explicit `now : Nat` argument to every
  operation (one timestamp per call).  Time arithmetic that JavaScript
  performs on `number`s is carried out in `Int`/`ℚ` so that subtraction is
  faithful.
* JavaScript floating-point arithmetic in the eviction scorer is modelled
  by exact rational arithmetic (`ℚ`).  `Math.ceil(n * 0.2)` equals
  `⌈n / 5⌉ = (n + 4) / 5` for every entry count `n` reachable here, because
  the rounding error of `n * 0.2` (double precision) is far below the
  distance to the nearest integer for such `n`.
* The cache is analysed in its default configuration with respect to the
  value codec: `compression: false` (the constructor's default), in which
  the `compress`/`decompress` branches of `set`/`get` are dead code and the
  stored value is the caller's value unchanged.  Persistence
  (`persistence: false`) only affects `localStorage` mirroring and is
  likewise off by default.
* `calculateSize` (JSON-serialised byte length via `Blob`) is an injected
  deterministic size function `calcSize : T → Nat`, matching the design
  document's external `measure` interface.
-/

namespace AdvDevUtils

/-- The `SmartCacheEntry<T>` interface (src/src/object/ObjectUtils.ts,
lines 472-479): stored value plus bookkeeping fields.  `tags` is optional
(`tags?: string[]`). -/
structure SmartCacheEntry (T : Type) where
  value : T
  timestamp : Nat
  accessCount : Nat
  lastAccessed : Nat
  size : Nat
  tags : Option (List String)
deriving Repr, DecidableEq

/-- The fields of `CacheOptions` (src/src/object/ObjectUtils.ts, lines
418-424) that the core cache consults for capacity and expiry: `ttl?` and
`maxSize?`.  `none` models an omitted field. -/
structure CacheOptions where
  ttl : Option Nat := none
  maxSize : Option Nat := none
deriving Repr, DecidableEq

/-- JavaScript `x || d` for an optional numeric option: an absent field or
the (falsy) value `0` yields the default. -/
def orDefault : Option Nat → Nat → Nat
  | none, d => d
  | some n, d => if n = 0 then d else n

/-- First-match lookup in an association list; models `Map.get`. -/
def mapLookup {β : Type} : List (String × β) → String → Option β
  | [], _ => none
  | (k, v) :: rest, key => if k = key then some v else mapLookup rest key

/-- `Map.set`: replace in place if the key is bound, else append. -/
def mapSet {β : Type} : List (String × β) → String → β → List (String × β)
  | [], key, v => [(key, v)]
  | (k, w) :: rest, key, v =>
      if k = key then (k, v) :: rest else (k, w) :: mapSet rest key v

/-- `Map.delete`: remove every binding of the key (exactly one under the
well-formedness invariant). -/
def mapDelete {β : Type} (m : List (String × β)) (key : String) :
    List (String × β) :=
  m.filter (fun p => p.1 ≠ key)

/-- The keys of an association list, in order. -/
def keysOf {β : Type} (m : List (String × β)) : List String :=
  m.map Prod.fst

/-- The mutable state of a `SmartCache<T>` instance (part_005, lines 6-17):
the entry table, hit/miss counters, the configured capacity and TTL, and
the per-key access-pattern history (`accessPatterns`). -/
structure SmartCache (T : Type) where
  cache : List (String × SmartCacheEntry T)
  hitCount : Nat
  missCount : Nat
  maxSize : Nat
  ttl : Nat
  accessPatterns : List (String × List Nat)
deriving Repr, DecidableEq

/-- The constructor (part_005, lines 19-34): `ttl = options.ttl || 300000`,
`maxSize = options.maxSize || 1000`, empty entry table and tracker. -/
def SmartCache.ofOptions (T : Type) (opts : CacheOptions) : SmartCache T :=
  { cache := []
    hitCount := 0
    missCount := 0
    maxSize := orDefault opts.maxSize 1000
    ttl := orDefault opts.ttl 300000
    accessPatterns := [] }

/-- `updateAccessPattern` (part_005, lines 255-266): append the current
timestamp to the key's history and drop the oldest entry once the ring
exceeds 100 timestamps. -/
def updateAccessPattern (ap : List (String × List Nat)) (key : String)
    (now : Nat) : List (String × List Nat) :=
  let pattern := ((mapLookup ap key).getD []) ++ [now]
  let pattern := if pattern.length > 100 then pattern.tail else pattern
  mapSet ap key pattern

/-- Exact rational arithmetic standing in for JavaScript `number`
arithmetic in the eviction scorer: an unreduced fraction of integers.
Every fraction built by the scorer has a positive denominator.  (Kept
unnormalised so that all operations are plain integer arithmetic the
kernel can evaluate; `toRat` gives the represented rational.) -/
structure JSNum where
  num : Int
  den : Int
deriving Repr, DecidableEq

namespace JSNum

/-- Embed a natural number (a timestamp, count or byte size). -/
def ofNat (n : Nat) : JSNum := ⟨(n : Int), 1⟩

def add (a b : JSNum) : JSNum := ⟨a.num * b.den + b.num * a.den, a.den * b.den⟩

def sub (a b : JSNum) : JSNum := ⟨a.num * b.den - b.num * a.den, a.den * b.den⟩

def mul (a b : JSNum) : JSNum := ⟨a.num * b.num, a.den * b.den⟩

def div (a b : JSNum) : JSNum := ⟨a.num * b.den, a.den * b.num⟩

/-- Strict comparison by cross-multiplication; agrees with the rational
order whenever both denominators are positive, which holds for every
fraction the scorer builds. -/
def blt (a b : JSNum) : Bool := decide (a.num * b.den < b.num * a.den)

/-- The rational number a fraction represents. -/
def toRat (a : JSNum) : ℚ := (a.num : ℚ) / (a.den : ℚ)

end JSNum

/-- `getAccessFrequency` (part_005, lines 268-277): 0 for fewer than two
recorded accesses, otherwise the number of accesses within the trailing
60000 ms window divided by 60 (accesses per second). -/
def getAccessFrequency (ap : List (String × List Nat)) (key : String)
    (now : Nat) : JSNum :=
  let pattern := (mapLookup ap key).getD []
  if pattern.length < 2 then JSNum.ofNat 0
  else
    let recent := pattern.filter (fun time => (now : Int) - (time : Int) < 60000)
    JSNum.div (JSNum.ofNat recent.length) (JSNum.ofNat 60)

/-- `get` (part_005, lines 39-69), returning the value (if any) together
with the successor state.  An absent key is a miss; an entry whose age
exceeds the TTL is deleted from the entry table (but not from
`accessPatterns`) and reported as a miss; otherwise the access pattern is
recorded, the entry's `accessCount`/`lastAccessed` are updated, and the
stored value is returned. -/
def SmartCache.get {T : Type} (s : SmartCache T) (key : String) (now : Nat) :
    Option T × SmartCache T :=
  match mapLookup s.cache key with
  | none => (none, { s with missCount := s.missCount + 1 })
  | some entry =>
    if (now : Int) - (entry.timestamp : Int) > (s.ttl : Int) then
      (none, { s with cache := mapDelete s.cache key
                      missCount := s.missCount + 1 })
    else
      let entry' := { entry with accessCount := entry.accessCount + 1
                                 lastAccessed := now }
      (some entry.value,
       { s with cache := mapSet s.cache key entry'
                accessPatterns := updateAccessPattern s.accessPatterns key now
                hitCount := s.hitCount + 1 })

/-- The per-entry eviction score (part_005, lines 113-129):
`age * 0.3 + timeSinceAccess * 0.4 + 1/(accessCount+1) * 0.2
 + (size/1024) * 0.1 - accessFrequency * 0.3`, on raw millisecond/byte
signals.  The float constants `0.3`, `0.4`, `0.2`, `0.1` are the
rationals `3/10`, `4/10`, `2/10`, `1/10`. -/
def entryScore {T : Type} (ap : List (String × List Nat)) (now : Nat)
    (key : String) (entry : SmartCacheEntry T) : JSNum :=
  let age := JSNum.sub (JSNum.ofNat now) (JSNum.ofNat entry.timestamp)
  let timeSinceAccess := JSNum.sub (JSNum.ofNat now) (JSNum.ofNat entry.lastAccessed)
  let accessFrequency := getAccessFrequency ap key now
  let sizeWeight := JSNum.div (JSNum.ofNat entry.size) (JSNum.ofNat 1024)
  JSNum.sub
    (JSNum.add
      (JSNum.add
        (JSNum.add (JSNum.mul age ⟨3, 10⟩) (JSNum.mul timeSinceAccess ⟨4, 10⟩))
        (JSNum.mul (JSNum.div (JSNum.ofNat 1) (JSNum.ofNat (entry.accessCount + 1)))
          ⟨2, 10⟩))
      (JSNum.mul sizeWeight ⟨1, 10⟩))
    (JSNum.mul accessFrequency ⟨3, 10⟩)

/-- One step of the stable descending insertion used to model
`scores.sort((a, b) => b.score - a.score)`: an element moves past exactly
the strictly greater scores, so equal scores keep their original relative
order, as the (stable) JavaScript sort does. -/
def insertScoreDesc (x : String × JSNum) :
    List (String × JSNum) → List (String × JSNum)
  | [] => [x]
  | y :: ys => if JSNum.blt x.2 y.2 then y :: insertScoreDesc x ys else x :: y :: ys

/-- Stable sort of the score list in descending score order. -/
def sortScoresDesc : List (String × JSNum) → List (String × JSNum)
  | [] => []
  | x :: xs => insertScoreDesc x (sortScoresDesc xs)

/-- `Math.ceil(n * 0.2)` (part_005, line 135) over the entry count `n`,
which equals `⌈n / 5⌉` (see the header note on floating point). -/
def evictBatch (n : Nat) : Nat := (n + 4) / 5

/-- Delete each listed key from both the entry table and the
access-pattern tracker (part_005, lines 136-139). -/
def deleteKeys {T : Type} (s : SmartCache T) : List String → SmartCache T
  | [] => s
  | k :: ks =>
      deleteKeys
        { s with cache := mapDelete s.cache k
                 accessPatterns := mapDelete s.accessPatterns k } ks

/-- `intelligentEviction` (part_005, lines 109-140): score every entry,
sort descending by score, and evict the first `Math.ceil(size * 0.2)`
keys from both the entry table and the tracker. -/
def SmartCache.intelligentEviction {T : Type} (s : SmartCache T) (now : Nat) :
    SmartCache T :=
  let scores := s.cache.map (fun p => (p.1, entryScore s.accessPatterns now p.1 p.2))
  let sorted := sortScoresDesc scores
  let victims := (sorted.take (evictBatch s.cache.length)).map Prod.fst
  deleteKeys s victims

/-- `set` (part_005, lines 74-104) in the `compression: false`
configuration: compute the size of the value, run `intelligentEviction`
whenever the entry count has reached `maxSize` (whether or not the key is
already present), then insert/replace the entry with fresh bookkeeping
fields and record an access-pattern event.  `set` is total: no capacity
condition makes it fail. -/
def SmartCache.set {T : Type} (s : SmartCache T) (calcSize : T → Nat)
    (key : String) (value : T) (tags : Option (List String)) (now : Nat) :
    SmartCache T :=
  let size := calcSize value
  let s1 := if s.cache.length ≥ s.maxSize then s.intelligentEviction now else s
  let entry : SmartCacheEntry T :=
    { value := value, timestamp := now, accessCount := 0,
      lastAccessed := now, size := size, tags := tags }
  { s1 with cache := mapSet s1.cache key entry
            accessPatterns := updateAccessPattern s1.accessPatterns key now }

/-- Whether an entry's optional tag list contains the tag
(`entry.tags && entry.tags.includes(tag)`, part_005, line 224). -/
def tagsInclude (tags : Option (List String)) (tag : String) : Bool :=
  match tags with
  | none => false
  | some l => l.contains tag

/-- `invalidateByTag` (part_005, lines 222-228): delete every entry
carrying the tag from the entry table.  The tracker is left untouched. -/
def SmartCache.invalidateByTag {T : Type} (s : SmartCache T) (tag : String) :
    SmartCache T :=
  { s with cache := s.cache.filter (fun p => ! tagsInclude p.2.tags tag) }

/-- `cleanup` (part_005, lines 294-302), the sweeper body: delete every
TTL-expired entry from the entry table and from the tracker. -/
def SmartCache.cleanup {T : Type} (s : SmartCache T) (now : Nat) :
    SmartCache T :=
  let expired := keysOf (s.cache.filter
    (fun p => decide ((now : Int) - (p.2.timestamp : Int) > (s.ttl : Int))))
  { s with
      cache := s.cache.filter
        (fun p => ! decide ((now : Int) - (p.2.timestamp : Int) > (s.ttl : Int)))
      accessPatterns := s.accessPatterns.filter (fun q => ! expired.contains q.1) }

/-- Run a sequence of `set` calls (key, value, tags, timestamp), left to
right. -/
def runSets {T : Type} (calcSize : T → Nat) (s : SmartCache T) :
    List (String × T × Option (List String) × Nat) → SmartCache T
  | [] => s
  | (k, v, tg, now) :: ops => runSets calcSize (s.set calcSize k v tg now) ops

/-- Well-formedness: keys of the entry table, and of the tracker, are
pairwise distinct — the `Map` key-uniqueness invariant. -/
def SmartCache.WF {T : Type} (s : SmartCache T) : Prop :=
  (keysOf s.cache).Nodup ∧ (keysOf s.accessPatterns).Nodup

instance {T : Type} (s : SmartCache T) : Decidable s.WF := by
  unfold SmartCache.WF; infer_instance

/-! ## Concrete states used by the scenario theorems and witnesses -/

/-- The fixed size function used in concrete scenarios (every value
measures 8 bytes). -/
def sizeFn : Nat → Nat := fun _ => 8

/-- Capacity-3 cache holding `a`, `b`, `c`, inserted at times 0, 1, 2. -/
def scnFull : SmartCache Nat :=
  (((SmartCache.ofOptions Nat { maxSize := some 3 }).set sizeFn "a" 1 none 0).set
      sizeFn "b" 2 none 1).set sizeFn "c" 3 none 2

/-- `scnFull` after `get`ting `a` three times (at 3, 4, 5) and `b` three
times (at 6, 7, 8); `c` is never accessed. -/
def scnAccessed : SmartCache Nat :=
  ((((((scnFull.get "a" 3).2.get "a" 4).2.get "a" 5).2.get "b" 6).2.get
      "b" 7).2.get "b" 8).2

/-- `scnAccessed` after inserting `d` at time 9 — the insertion that
triggers an eviction. -/
def scnAfterD : SmartCache Nat := scnAccessed.set sizeFn "d" 4 none 9

/-- A cache configured with `ttl = 100` holding one entry `k` inserted at
time 0. -/
def ttlCache : SmartCache Nat :=
  (SmartCache.ofOptions Nat { ttl := some 100 }).set sizeFn "k" 5 none 0

/-- `ttlCache` after a `get` of `k` at time 200, i.e. after the entry has
expired and been lazily purged by `get`. -/
def ttlCacheAfterExpiredGet : SmartCache Nat := (ttlCache.get "k" 200).2

/-- A capacity-3 cache after `set`ting a single value that measures
1000000 bytes. -/
def bigValCache : SmartCache Nat :=
  (SmartCache.ofOptions Nat { maxSize := some 3 }).set (fun _ => 1000000)
    "k" 42 none 0

/-- A cache with a `t`-tagged entry `x` and an untagged entry `y`. -/
def tagCache : SmartCache Nat :=
  ((SmartCache.ofOptions Nat {}).set sizeFn "x" 1 (some ["t"]) 0).set
    sizeFn "y" 2 none 1

/-- A never-accessed entry created at time 0 with size 0. -/
def zeroEntry : SmartCacheEntry Nat := ⟨0, 0, 0, 0, 0, none⟩

/-! ## Association-list lemmas -/

theorem mapLookup_mapSet_self {β : Type} (m : List (String × β)) (k : String)
    (v : β) : mapLookup (mapSet m k v) k = some v := by
  induction m with
  | nil => simp [mapSet, mapLookup]
  | cons p rest ih =>
      by_cases h : p.1 = k
      · simp [mapSet, mapLookup, h]
      · simpa [mapSet, mapLookup, h] using ih

theorem mapSet_length_le {β : Type} (m : List (String × β)) (k : String)
    (v : β) : (mapSet m k v).length ≤ m.length + 1 := by
  induction m with
  | nil => simp [mapSet]
  | cons p rest ih =>
      by_cases h : p.1 = k
      · simp [mapSet, h]
      · simpa [mapSet, h] using Nat.succ_le_succ ih

theorem mem_keysOf_mapSet {β : Type} (m : List (String × β)) (k k' : String)
    (v : β) : k' ∈ keysOf (mapSet m k v) ↔ k' ∈ keysOf m ∨ k' = k := by
  induction m with
  | nil => simp [mapSet, keysOf]
  | cons p rest ih =>
      by_cases h : p.1 = k
      · subst h
        have hset : mapSet (p :: rest) p.1 v = (p.1, v) :: rest := by
          simp [mapSet]
        rw [hset]
        simp only [keysOf, List.map_cons, List.mem_cons]
        tauto
      · simp only [mapSet, if_neg h, keysOf, List.map_cons, List.mem_cons]
        rw [show (List.map Prod.fst (mapSet rest k v)) = keysOf (mapSet rest k v)
          from rfl]
        rw [ih]
        tauto

theorem nodup_keysOf_mapSet {β : Type} (m : List (String × β)) (k : String)
    (v : β) (h : (keysOf m).Nodup) : (keysOf (mapSet m k v)).Nodup := by
  induction m with
  | nil => simp [mapSet, keysOf]
  | cons p rest ih =>
      simp only [keysOf, List.map_cons, List.nodup_cons] at h
      by_cases hpk : p.1 = k
      · simp only [mapSet, if_pos hpk, keysOf, List.map_cons, List.nodup_cons]
        exact ⟨h.1, h.2⟩
      · simp only [mapSet, if_neg hpk, keysOf, List.map_cons, List.nodup_cons]
        refine ⟨?_, ih h.2⟩
        intro hmem
        rcases (mem_keysOf_mapSet rest k p.1 v).1 hmem with h' | h'
        · exact h.1 h'
        · exact hpk h'

theorem keysOf_mapDelete {β : Type} (m : List (String × β)) (k : String) :
    keysOf (mapDelete m k) = (keysOf m).filter (fun x => x ≠ k) := by
  induction m with
  | nil => simp [mapDelete, keysOf]
  | cons p rest ih =>
      by_cases h : p.1 = k <;>
        simpa [mapDelete, keysOf, h, List.filter_cons] using ih

theorem mem_keysOf_mapDelete {β : Type} (m : List (String × β))
    (k k' : String) :
    k' ∈ keysOf (mapDelete m k) ↔ k' ∈ keysOf m ∧ k' ≠ k := by
  rw [keysOf_mapDelete]
  simp [List.mem_filter]

theorem nodup_keysOf_mapDelete {β : Type} (m : List (String × β))
    (k : String) (h : (keysOf m).Nodup) : (keysOf (mapDelete m k)).Nodup := by
  rw [keysOf_mapDelete]
  exact h.filter _

theorem mapLookup_eq_none_iff {β : Type} (m : List (String × β))
    (k : String) : mapLookup m k = none ↔ k ∉ keysOf m := by
  induction m with
  | nil => simp [mapLookup, keysOf]
  | cons p rest ih =>
      by_cases h : p.1 = k
      · simp [mapLookup, keysOf, h]
      · simpa [mapLookup, keysOf, h, Ne.symm h] using ih

theorem mapDelete_eq_self_of_not_mem {β : Type} (m : List (String × β))
    (k : String) (h : k ∉ keysOf m) : mapDelete m k = m := by
  apply List.filter_eq_self.2
  intro p hp
  simp only [decide_eq_true_eq]
  intro hpk
  exact h (hpk ▸ by simpa [keysOf] using List.mem_map_of_mem Prod.fst hp)

theorem length_mapDelete_of_mem {β : Type} (m : List (String × β))
    (k : String) (hnd : (keysOf m).Nodup) (hk : k ∈ keysOf m) :
    (mapDelete m k).length + 1 = m.length := by
  induction m with
  | nil => simp [keysOf] at hk
  | cons p rest ih =>
      simp only [keysOf, List.map_cons, List.nodup_cons] at hnd
      by_cases h : p.1 = k
      · have h1 : mapDelete (p :: rest) k = mapDelete rest k := by
          simp [mapDelete, List.filter_cons, h]
        have h2 : mapDelete rest k = rest :=
          mapDelete_eq_self_of_not_mem rest k (by rw [← h]; exact hnd.1)
        rw [h1, h2]
        simp
      · have hk' : k ∈ keysOf rest := by
          rcases List.mem_cons.1 hk with h' | h'
          · exact absurd h'.symm h
          · exact h'
        have h1 : mapDelete (p :: rest) k = p :: mapDelete rest k := by
          simp [mapDelete, List.filter_cons, h]
        rw [h1]
        have := ih hnd.2 hk'
        simp only [List.length_cons]
        omega

/-! ## `deleteKeys` lemmas -/

theorem deleteKeys_maxSize {T : Type} (s : SmartCache T) (ks : List String) :
    (deleteKeys s ks).maxSize = s.maxSize := by
  induction ks generalizing s with
  | nil => rfl
  | cons k0 ks ih => simpa [deleteKeys] using ih _

theorem deleteKeys_ttl {T : Type} (s : SmartCache T) (ks : List String) :
    (deleteKeys s ks).ttl = s.ttl := by
  induction ks generalizing s with
  | nil => rfl
  | cons k0 ks ih => simpa [deleteKeys] using ih _

theorem mem_keysOf_deleteKeys_cache {T : Type} (s : SmartCache T)
    (ks : List String) (k : String) :
    k ∈ keysOf (deleteKeys s ks).cache ↔ k ∈ keysOf s.cache ∧ k ∉ ks := by
  induction ks generalizing s with
  | nil => simp [deleteKeys]
  | cons k0 ks ih =>
      simp only [deleteKeys]
      rw [ih]
      show k ∈ keysOf (mapDelete s.cache k0) ∧ k ∉ ks ↔ _
      rw [mem_keysOf_mapDelete]
      simp only [List.mem_cons]
      tauto

theorem mem_keysOf_deleteKeys_patterns {T : Type} (s : SmartCache T)
    (ks : List String) (k : String) :
    k ∈ keysOf (deleteKeys s ks).accessPatterns ↔
      k ∈ keysOf s.accessPatterns ∧ k ∉ ks := by
  induction ks generalizing s with
  | nil => simp [deleteKeys]
  | cons k0 ks ih =>
      simp only [deleteKeys]
      rw [ih]
      show k ∈ keysOf (mapDelete s.accessPatterns k0) ∧ k ∉ ks ↔ _
      rw [mem_keysOf_mapDelete]
      simp only [List.mem_cons]
      tauto

theorem deleteKeys_WF {T : Type} (s : SmartCache T) (ks : List String)
    (h : s.WF) : (deleteKeys s ks).WF := by
  induction ks generalizing s with
  | nil => exact h
  | cons k0 ks ih =>
      exact ih _ ⟨nodup_keysOf_mapDelete _ _ h.1, nodup_keysOf_mapDelete _ _ h.2⟩

theorem length_deleteKeys_cache {T : Type} (s : SmartCache T)
    (ks : List String) (hnd : (keysOf s.cache).Nodup) (hks : ks.Nodup)
    (hsub : ∀ k ∈ ks, k ∈ keysOf s.cache) :
    (deleteKeys s ks).cache.length + ks.length = s.cache.length := by
  induction ks generalizing s with
  | nil => simp [deleteKeys]
  | cons k0 ks ih =>
      simp only [deleteKeys]
      have h0 : k0 ∈ keysOf s.cache := hsub k0 (by simp)
      have hlen := length_mapDelete_of_mem s.cache k0 hnd h0
      have hk0ks : k0 ∉ ks := (List.nodup_cons.1 hks).1
      have hstep := ih
        { s with cache := mapDelete s.cache k0
                 accessPatterns := mapDelete s.accessPatterns k0 }
        (nodup_keysOf_mapDelete _ _ hnd) ((List.nodup_cons.1 hks).2)
        (by
          intro k hk
          show k ∈ keysOf (mapDelete s.cache k0)
          rw [mem_keysOf_mapDelete]
          exact ⟨hsub k (by simp [hk]), fun he => hk0ks (he ▸ hk)⟩)
      have hc : ({ s with cache := mapDelete s.cache k0
                          accessPatterns := mapDelete s.accessPatterns k0 }
          : SmartCache T).cache = mapDelete s.cache k0 := rfl
      rw [hc] at hstep
      simp only [List.length_cons]
      omega

/-! ## Sort lemmas -/

theorem insertScoreDesc_perm (x : String × JSNum) (l : List (String × JSNum)) :
    (insertScoreDesc x l).Perm (x :: l) := by
  induction l with
  | nil => exact List.Perm.refl _
  | cons y ys ih =>
      by_cases h : JSNum.blt x.2 y.2
      · simp only [insertScoreDesc, if_pos h]
        exact (ih.cons y).trans (List.Perm.swap x y ys)
      · simp only [insertScoreDesc, if_neg h]
        exact List.Perm.refl _

theorem sortScoresDesc_perm (l : List (String × JSNum)) :
    (sortScoresDesc l).Perm l := by
  induction l with
  | nil => exact List.Perm.refl _
  | cons x xs ih =>
      exact (insertScoreDesc_perm x (sortScoresDesc xs)).trans (ih.cons x)

/-! ## `intelligentEviction` lemmas -/

theorem evictBatch_le (n : Nat) : evictBatch n ≤ n := by
  unfold evictBatch
  omega

theorem evictBatch_pos (n : Nat) (h : 1 ≤ n) : 1 ≤ evictBatch n := by
  unfold evictBatch
  omega

theorem evictBatch_lt (n : Nat) (h : 2 ≤ n) : evictBatch n < n := by
  unfold evictBatch
  omega

theorem intelligentEviction_spec {T : Type} (s : SmartCache T) (now : Nat) :
    ∃ ks : List String,
      s.intelligentEviction now = deleteKeys s ks ∧
      ks.length = min (evictBatch s.cache.length) s.cache.length ∧
      (∀ k ∈ ks, k ∈ keysOf s.cache) ∧
      ((keysOf s.cache).Nodup → ks.Nodup) := by
  have hfst : List.map Prod.fst
      (s.cache.map (fun p => (p.1, entryScore s.accessPatterns now p.1 p.2)))
      = keysOf s.cache := by
    simp [keysOf, List.map_map, Function.comp]
  set scores := s.cache.map
    (fun p => (p.1, entryScore s.accessPatterns now p.1 p.2)) with hscores
  have hperm : (sortScoresDesc scores).Perm scores := sortScoresDesc_perm scores
  have hlensorted : (sortScoresDesc scores).length = s.cache.length := by
    rw [hperm.length_eq, hscores, List.length_map]
  refine ⟨((sortScoresDesc scores).take (evictBatch s.cache.length)).map Prod.fst,
    rfl, ?_, ?_, ?_⟩
  · rw [List.length_map, List.length_take, hlensorted]
  · intro k hk
    rw [List.map_take] at hk
    have hk2 : k ∈ List.map Prod.fst (sortScoresDesc scores) :=
      (List.take_sublist _ _).mem hk
    have hk3 : k ∈ List.map Prod.fst scores := (hperm.map Prod.fst).mem_iff.1 hk2
    rwa [hfst] at hk3
  · intro hnd
    rw [List.map_take]
    refine (List.take_sublist _ _).nodup ?_
    refine ((hperm.map Prod.fst).nodup_iff).2 ?_
    rwa [hfst]

theorem length_intelligentEviction {T : Type} (s : SmartCache T) (now : Nat)
    (h : s.WF) :
    (s.intelligentEviction now).cache.length
      = s.cache.length - evictBatch s.cache.length := by
  obtain ⟨ks, heq, hlen, hsub, hnd⟩ := intelligentEviction_spec s now
  rw [heq]
  have hmain := length_deleteKeys_cache s ks h.1 (hnd h.1) hsub
  have hle := evictBatch_le s.cache.length
  omega

theorem WF_intelligentEviction {T : Type} (s : SmartCache T) (now : Nat)
    (h : s.WF) : (s.intelligentEviction now).WF := by
  obtain ⟨ks, heq, -, -, -⟩ := intelligentEviction_spec s now
  rw [heq]
  exact deleteKeys_WF s ks h

theorem intelligentEviction_maxSize {T : Type} (s : SmartCache T) (now : Nat) :
    (s.intelligentEviction now).maxSize = s.maxSize := by
  obtain ⟨ks, heq, -, -, -⟩ := intelligentEviction_spec s now
  rw [heq]
  exact deleteKeys_maxSize s ks

theorem evict_purges_tracker {T : Type} (s : SmartCache T) (now : Nat)
    (k : String) (hmem : k ∈ keysOf s.cache)
    (hgone : k ∉ keysOf (s.intelligentEviction now).cache) :
    k ∉ keysOf (s.intelligentEviction now).accessPatterns := by
  obtain ⟨ks, heq, -, -, -⟩ := intelligentEviction_spec s now
  rw [heq] at hgone ⊢
  rw [mem_keysOf_deleteKeys_cache] at hgone
  rw [mem_keysOf_deleteKeys_patterns]
  tauto

/-! ## `set` and `get` lemmas -/

theorem set_cache_eq {T : Type} (s : SmartCache T) (calcSize : T → Nat)
    (k : String) (v : T) (tg : Option (List String)) (now : Nat) :
    (s.set calcSize k v tg now).cache
      = mapSet (if s.cache.length ≥ s.maxSize then s.intelligentEviction now
          else s).cache k
          ⟨v, now, 0, now, calcSize v, tg⟩ := rfl

theorem set_patterns_eq {T : Type} (s : SmartCache T) (calcSize : T → Nat)
    (k : String) (v : T) (tg : Option (List String)) (now : Nat) :
    (s.set calcSize k v tg now).accessPatterns
      = updateAccessPattern
          (if s.cache.length ≥ s.maxSize then s.intelligentEviction now
            else s).accessPatterns k now := rfl

theorem set_maxSize {T : Type} (s : SmartCache T) (calcSize : T → Nat)
    (k : String) (v : T) (tg : Option (List String)) (now : Nat) :
    (s.set calcSize k v tg now).maxSize = s.maxSize := by
  show (if s.cache.length ≥ s.maxSize then s.intelligentEviction now
      else s).maxSize = s.maxSize
  by_cases h : s.cache.length ≥ s.maxSize
  · rw [if_pos h, intelligentEviction_maxSize]
  · rw [if_neg h]

theorem WF_set {T : Type} (s : SmartCache T) (calcSize : T → Nat)
    (k : String) (v : T) (tg : Option (List String)) (now : Nat)
    (h : s.WF) : (s.set calcSize k v tg now).WF := by
  have h1 : (if s.cache.length ≥ s.maxSize then s.intelligentEviction now
      else s).WF := by
    by_cases hc : s.cache.length ≥ s.maxSize
    · rw [if_pos hc]; exact WF_intelligentEviction s now h
    · rwa [if_neg hc]
  constructor
  · rw [set_cache_eq]
    exact nodup_keysOf_mapSet _ _ _ h1.1
  · rw [set_patterns_eq]
    exact nodup_keysOf_mapSet _ _ _ h1.2

theorem set_cache_length_le {T : Type} (s : SmartCache T) (calcSize : T → Nat)
    (k : String) (v : T) (tg : Option (List String)) (now : Nat)
    (hwf : s.WF) (hle : s.cache.length ≤ s.maxSize) (hpos : 1 ≤ s.maxSize) :
    (s.set calcSize k v tg now).cache.length ≤ s.maxSize := by
  rw [set_cache_eq]
  by_cases hc : s.cache.length ≥ s.maxSize
  · rw [if_pos hc]
    have h1 := length_intelligentEviction s now hwf
    have h2 := mapSet_length_le (s.intelligentEviction now).cache k
      ⟨v, now, 0, now, calcSize v, tg⟩
    have h3 := evictBatch_pos s.cache.length (le_trans hpos hc)
    omega
  · rw [if_neg hc]
    have h2 := mapSet_length_le s.cache k ⟨v, now, 0, now, calcSize v, tg⟩
    omega

theorem runSets_inv {T : Type} (calcSize : T → Nat)
    (ops : List (String × T × Option (List String) × Nat)) (s : SmartCache T)
    (hwf : s.WF) (hle : s.cache.length ≤ s.maxSize) (hpos : 1 ≤ s.maxSize) :
    (runSets calcSize s ops).WF
    ∧ (runSets calcSize s ops).cache.length ≤ s.maxSize
    ∧ (runSets calcSize s ops).maxSize = s.maxSize := by
  induction ops generalizing s with
  | nil => exact ⟨hwf, hle, rfl⟩
  | cons op ops ih =>
      obtain ⟨k, v, tg, now⟩ := op
      have hwf' := WF_set s calcSize k v tg now hwf
      have hle' := set_cache_length_le s calcSize k v tg now hwf hle hpos
      have hmax := set_maxSize s calcSize k v tg now
      have := ih (s.set calcSize k v tg now) hwf' (hmax ▸ hle') (hmax ▸ hpos)
      simpa [runSets, hmax] using this

theorem orDefault_pos (o : Option Nat) : 1 ≤ orDefault o 1000 := by
  cases o with
  | none => simp [orDefault]
  | some n =>
      by_cases h : n = 0
      · simp [orDefault, h]
      · rw [orDefault, if_neg h]
        omega

theorem mapLookup_mem {β : Type} (m : List (String × β)) (k : String) (v : β)
    (h : mapLookup m k = some v) : (k, v) ∈ m := by
  induction m with
  | nil => simp [mapLookup] at h
  | cons p rest ih =>
      obtain ⟨p1, p2⟩ := p
      by_cases hp : p1 = k
      · rw [mapLookup, if_pos hp] at h
        have hv : p2 = v := by injection h
        rw [hp, hv]
        exact List.mem_cons_self _ _
      · rw [mapLookup, if_neg hp] at h
        exact List.mem_cons_of_mem _ (ih h)

theorem keysOf_filter_subset {β : Type} (m : List (String × β))
    (p : String × β → Bool) (k : String)
    (h : k ∈ keysOf (m.filter p)) : k ∈ keysOf m := by
  simp only [keysOf, List.mem_map] at h ⊢
  obtain ⟨q, hq, rfl⟩ := h
  exact ⟨q, (List.filter_sublist m).subset hq, rfl⟩

theorem mapLookup_filter {β : Type} (m : List (String × β))
    (p : String × β → Bool) (k : String) (hnd : (keysOf m).Nodup) :
    mapLookup (m.filter p) k
      = match mapLookup m k with
        | some v => if p (k, v) then some v else none
        | none => none := by
  induction m with
  | nil => simp [mapLookup]
  | cons q rest ih =>
      obtain ⟨q1, q2⟩ := q
      simp only [keysOf, List.map_cons, List.nodup_cons] at hnd
      by_cases hq : q1 = k
      · subst hq
        have hrest : mapLookup (rest.filter p) q1 = none := by
          rw [mapLookup_eq_none_iff]
          intro hmem
          exact hnd.1 (keysOf_filter_subset rest p _ hmem)
        rw [List.filter_cons]
        by_cases hp : p (q1, q2) = true
        · rw [if_pos hp]
          simp [mapLookup, hp]
        · rw [if_neg hp]
          simp [mapLookup, hrest, hp]
      · rw [List.filter_cons]
        have hm : mapLookup ((q1, q2) :: rest) k = mapLookup rest k := by
          rw [mapLookup, if_neg hq]
        rw [hm]
        by_cases hp : p (q1, q2) = true
        · rw [if_pos hp, mapLookup, if_neg hq]
          exact ih hnd.2
        · rw [if_neg hp]
          exact ih hnd.2

theorem get_none_of_lookup_none {T : Type} (s : SmartCache T) (k : String)
    (now : Nat) (h : mapLookup s.cache k = none) : (s.get k now).1 = none := by
  unfold SmartCache.get
  rw [h]

theorem mem_keysOf_exists {β : Type} (m : List (String × β)) (k : String)
    (h : k ∈ keysOf m) : ∃ v, (k, v) ∈ m := by
  simp only [keysOf, List.mem_map] at h
  obtain ⟨⟨k1, v⟩, hmem, heq⟩ := h
  exact ⟨v, heq ▸ hmem⟩

theorem mapLookup_filter_none {β : Type} (l : List (String × β))
    (p : String × β → Bool) (k : String) (h : ∀ v : β, p (k, v) = false) :
    mapLookup (l.filter p) k = none := by
  rw [mapLookup_eq_none_iff]
  intro hmem
  obtain ⟨v, hv⟩ := mem_keysOf_exists _ _ hmem
  have hpv := (List.mem_filter.1 hv).2
  rw [h v] at hpv
  exact Bool.false_ne_true hpv

theorem cleanup_patterns_eq {T : Type} (s : SmartCache T) (now : Nat) :
    (s.cleanup now).accessPatterns
      = s.accessPatterns.filter (fun q =>
          ! (keysOf (s.cache.filter (fun p =>
              decide ((now : Int) - (p.2.timestamp : Int) > (s.ttl : Int))))).contains
            q.1) := rfl

/-- Closed form of the eviction score of a never-accessed, zero-sized entry
created at time 0, evaluated at time `n` with no tracker history: the raw
age and idle signals contribute `0.3·n + 0.4·n` and the inverted access
count contributes `0.2`. -/
theorem score_closed_form (n : Nat) :
    JSNum.toRat (entryScore [] n "k" zeroEntry) = (7 * n) / 10 + 1 / 5 := by
  simp only [entryScore, getAccessFrequency, mapLookup, zeroEntry,
    JSNum.ofNat, JSNum.add, JSNum.sub, JSNum.mul, JSNum.div, JSNum.toRat,
    Option.getD, List.length_nil]
  norm_num
  field_simp
  ring

/-! ## Claim theorems -/

/-- C1 (capacity invariant): for every sequence of `set` calls executed on
a freshly constructed cache, the entry count after the sequence is at most
the configured `maxSize` budget (`options.maxSize || 1000`).  Since every
prefix of a sequence is itself a sequence, this bounds the store after
each individual `set` returns.  (The `ValueTooLarge` caveat of the claim
is vacuous: no `set` ever raises, see C3.) -/
theorem capacity_invariant (T : Type) (calcSize : T → Nat)
    (opts : CacheOptions)
    (ops : List (String × T × Option (List String) × Nat)) :
    (runSets calcSize (SmartCache.ofOptions T opts) ops).cache.length
      ≤ orDefault opts.maxSize 1000 := by
  have h := runSets_inv calcSize ops (SmartCache.ofOptions T opts)
    ⟨List.nodup_nil, List.nodup_nil⟩ (by simp [SmartCache.ofOptions])
    (orDefault_pos opts.maxSize)
  exact h.2.1

/-- C2 (TTL correctness of `get`): if the store holds an entry for `k`
inserted at time `e.timestamp`, then a `get` at a time strictly beyond
`timestamp + ttl` misses and lazily purges the entry from the store,
while a `get` at any time up to `timestamp + ttl` returns the stored
value. -/
theorem ttl_correctness {T : Type} (s : SmartCache T) (k : String)
    (e : SmartCacheEntry T) (now : Nat)
    (h : mapLookup s.cache k = some e) :
    ((now : Int) - (e.timestamp : Int) > (s.ttl : Int) →
        (s.get k now).1 = none ∧ mapLookup (s.get k now).2.cache k = none)
    ∧ ((now : Int) - (e.timestamp : Int) ≤ (s.ttl : Int) →
        (s.get k now).1 = some e.value) := by
  constructor
  · intro hexp
    have hg : s.get k now
        = (none, { s with cache := mapDelete s.cache k
                          missCount := s.missCount + 1 }) := by
      unfold SmartCache.get
      rw [h]
      simp only [if_pos hexp]
    rw [hg]
    refine ⟨rfl, ?_⟩
    show mapLookup (mapDelete s.cache k) k = none
    rw [mapLookup_eq_none_iff, mem_keysOf_mapDelete]
    simp
  · intro hok
    have hne : ¬((now : Int) - (e.timestamp : Int) > (s.ttl : Int)) :=
      not_lt.2 hok
    unfold SmartCache.get
    rw [h]
    simp only [if_neg hne]

/-- C2 witness: in `ttlCache` (ttl 100, entry `k` inserted at 0), `get` at
time 200 misses and purges, while `get` at time 50 returns the value 5. -/
theorem ttl_correctness_witness :
    (ttlCache.get "k" 200).1 = none
    ∧ mapLookup (ttlCache.get "k" 200).2.cache "k" = none
    ∧ (ttlCache.get "k" 50).1 = some 5 := by
  have h1 := ttl_correctness ttlCache "k" ⟨5, 0, 0, 0, 8, none⟩ 200 (by decide)
  have h2 := ttl_correctness ttlCache "k" ⟨5, 0, 0, 0, 8, none⟩ 50 (by decide)
  exact ⟨(h1.1 (by decide)).1, (h1.1 (by decide)).2, h2.2 (by decide)⟩

/-- C3 counterexample: `set` of a value measuring 1000000 bytes into an
empty cache whose configured budget is 3 is *not* rejected and the store
is *not* left unchanged — the entry is simply inserted (there is no
`ValueTooLarge` error anywhere in `SmartCache`; `set` is total). -/
theorem value_too_large_cex :
    bigValCache.cache.length = 1
    ∧ mapLookup bigValCache.cache "k" = some ⟨42, 0, 0, 0, 1000000, none⟩ := by
  decide

/-- C3 amended: `set` never fails for any reason, capacity included: for
every state and every value — regardless of its measured size — the call
returns normally and the key is afterwards bound to a fresh entry holding
the value. -/
theorem set_never_fails {T : Type} (s : SmartCache T) (calcSize : T → Nat)
    (k : String) (v : T) (tg : Option (List String)) (now : Nat) :
    mapLookup (s.set calcSize k v tg now).cache k
      = some ⟨v, now, 0, now, calcSize v, tg⟩ := by
  rw [set_cache_eq, mapLookup_mapSet_self]

/-- C4 (eviction batch bound): when a `set` finds the store at or over the
`maxSize` budget with more than one entry, the eviction pass it runs
removes at most `⌈entryCount * 0.2⌉` entries (in fact exactly that many),
never the whole store, and the `set` performs no removal beyond that pass
(its result is exactly the post-eviction store plus the new binding). -/
theorem eviction_batch_bound {T : Type} (s : SmartCache T) (now : Nat)
    (hwf : s.WF) (hover : s.maxSize ≤ s.cache.length)
    (htwo : 1 < s.cache.length) :
    s.cache.length - (s.intelligentEviction now).cache.length
        ≤ evictBatch s.cache.length
    ∧ (s.intelligentEviction now).cache ≠ []
    ∧ ∀ (calcSize : T → Nat) (k : String) (v : T) (tg : Option (List String)),
        (s.set calcSize k v tg now).cache
          = mapSet (s.intelligentEviction now).cache k
              ⟨v, now, 0, now, calcSize v, tg⟩ := by
  have hlen := length_intelligentEviction s now hwf
  refine ⟨by omega, ?_, ?_⟩
  · have hlt := evictBatch_lt s.cache.length htwo
    exact List.length_pos.1 (by omega)
  · intro calcSize k v tg
    rw [set_cache_eq, if_pos hover]

/-- C4 witness: the full capacity-3 store `scnAccessed` (3 entries). -/
theorem eviction_batch_bound_witness :
    scnAccessed.cache.length - (scnAccessed.intelligentEviction 9).cache.length
        ≤ evictBatch scnAccessed.cache.length
    ∧ (scnAccessed.intelligentEviction 9).cache ≠ []
    ∧ (scnAccessed.set sizeFn "d" 4 none 9).cache
        = mapSet (scnAccessed.intelligentEviction 9).cache "d"
            ⟨4, 9, 0, 9, sizeFn 4, none⟩ := by
  have h := eviction_batch_bound scnAccessed 9 (by decide) (by decide) (by decide)
  exact ⟨h.1, h.2.1, h.2.2 sizeFn "d" 4 none⟩

/-- C5 (concrete eviction scenario): capacity 3; after inserting `a,b,c`,
accessing `a` and `b` three times each (never `c`) and inserting `d`, the
eviction selects `c`: the store holds exactly `a,b,d`, `get` returns their
values, and `get c` returns a miss. -/
theorem concrete_eviction_scenario :
    keysOf scnAfterD.cache = ["a", "b", "d"]
    ∧ (scnAfterD.get "a" 10).1 = some 1
    ∧ (scnAfterD.get "b" 10).1 = some 2
    ∧ (scnAfterD.get "d" 10).1 = some 4
    ∧ (scnAfterD.get "c" 10).1 = none := by
  decide

/-- C6 (tag consistency): immediately after `invalidateByTag tag`, every
key whose entry carried the tag is gone — any subsequent `get` on it
misses — and no surviving entry carries the tag. -/
theorem tag_consistency {T : Type} (s : SmartCache T) (tag : String)
    (hwf : s.WF) :
    (∀ (k : String) (e : SmartCacheEntry T) (now : Nat),
        mapLookup s.cache k = some e → tagsInclude e.tags tag = true →
        ((s.invalidateByTag tag).get k now).1 = none)
    ∧ (∀ (k : String) (e : SmartCacheEntry T),
        mapLookup (s.invalidateByTag tag).cache k = some e →
        tagsInclude e.tags tag = false) := by
  have hc : (s.invalidateByTag tag).cache
      = s.cache.filter (fun p => ! tagsInclude p.2.tags tag) := rfl
  constructor
  · intro k e now hlook htag
    apply get_none_of_lookup_none
    rw [hc, mapLookup_filter _ _ _ hwf.1, hlook]
    simp [htag]
  · intro k e hlook
    rw [hc, mapLookup_filter _ _ _ hwf.1] at hlook
    cases hm : mapLookup s.cache k with
    | none => rw [hm] at hlook; exact absurd hlook (by simp)
    | some e0 =>
        rw [hm] at hlook
        simp only [] at hlook
        split at hlook
        · obtain rfl : e0 = e := by injection hlook
          simp_all
        · exact absurd hlook (by simp)

/-- C6 witness: invalidating tag `t` on `tagCache` makes the tagged key
`x` unretrievable. -/
theorem tag_consistency_witness :
    ((tagCache.invalidateByTag "t").get "x" 5).1 = none := by
  have h := tag_consistency tagCache "t" (by decide)
  exact h.1 "x" ⟨1, 0, 0, 0, 8, some ["t"]⟩ 5 (by decide) (by decide)

/-- C7 counterexample: after the entry for `k` is destroyed by the lazy
TTL purge inside `get`, the access-pattern tracker still holds the key's
history `[0]` — the tracker is *not* purged on this destruction path, so
it outlives the entry, contradicting the claim. -/
theorem tracker_lifetime_cex :
    mapLookup ttlCacheAfterExpiredGet.cache "k" = none
    ∧ mapLookup ttlCacheAfterExpiredGet.accessPatterns "k" = some [0] := by
  decide

/-- C7 amended: the tracker history of a key is purged when the key is
destroyed by capacity-triggered eviction or by the periodic `cleanup`
sweep; it is *not* purged on the lazy TTL purge inside `get` (see the
counterexample) nor on tag invalidation. -/
theorem tracker_purge_on_evict_and_cleanup {T : Type} (s : SmartCache T)
    (now : Nat) (k : String) :
    (k ∈ keysOf s.cache → k ∉ keysOf (s.intelligentEviction now).cache →
        k ∉ keysOf (s.intelligentEviction now).accessPatterns)
    ∧ (∀ e : SmartCacheEntry T, mapLookup s.cache k = some e →
        (now : Int) - (e.timestamp : Int) > (s.ttl : Int) →
        mapLookup (s.cleanup now).accessPatterns k = none) := by
  constructor
  · exact fun hm hg => evict_purges_tracker s now k hm hg
  · intro e hlook hexp
    have hpair : (k, e) ∈ s.cache := mapLookup_mem _ _ _ hlook
    have hfp : (k, e) ∈ s.cache.filter (fun p =>
        decide ((now : Int) - (p.2.timestamp : Int) > (s.ttl : Int))) :=
      List.mem_filter.2 ⟨hpair, by simpa using hexp⟩
    have hkexp : k ∈ keysOf (s.cache.filter (fun p =>
        decide ((now : Int) - (p.2.timestamp : Int) > (s.ttl : Int)))) :=
      List.mem_map_of_mem Prod.fst hfp
    rw [cleanup_patterns_eq]
    apply mapLookup_filter_none
    intro w
    simp [hkexp]

/-- C7 amended witness: eviction from the full store `scnAccessed` purges
the evicted key `c` from the tracker, and `cleanup` at time 200 purges the
expired key `k` of `ttlCache` from the tracker. -/
theorem tracker_purge_witness :
    "c" ∉ keysOf (scnAccessed.intelligentEviction 9).accessPatterns
    ∧ mapLookup (ttlCache.cleanup 200).accessPatterns "k" = none := by
  refine ⟨(tracker_purge_on_evict_and_cleanup scnAccessed 9 "c").1
      (by decide) (by decide),
    (tracker_purge_on_evict_and_cleanup ttlCache 200 "k").2
      ⟨5, 0, 0, 0, 8, none⟩ (by decide) (by decide)⟩

/-- C8 counterexample: the score of a concrete entry (created at 0, never
accessed, size 0, no tracker history, scored at time 100000) is 70000.2 —
but any composite of four `[0,1]`-normalized signals with weights
0.4/0.3/0.2/0.1 lies in `[0,1]`, so the code's score is not of the
claimed normalized form. -/
theorem score_not_normalized_cex :
    ¬ ∃ (i f a z : ℚ),
        (0 ≤ i ∧ i ≤ 1) ∧ (0 ≤ f ∧ f ≤ 1) ∧ (0 ≤ a ∧ a ≤ 1) ∧ (0 ≤ z ∧ z ≤ 1) ∧
        JSNum.toRat (entryScore [] 100000 "k" zeroEntry)
          = (4 / 10) * i + (3 / 10) * f + (2 / 10) * a + (1 / 10) * z := by
  have hval : JSNum.toRat (entryScore [] 100000 "k" zeroEntry) = 350001 / 5 := by
    have h : entryScore [] 100000 "k" zeroEntry = ⟨7168020480000, 102400000⟩ := by
      decide
    rw [h]
    norm_num [JSNum.toRat]
  rintro ⟨i, f, a, z, ⟨hi0, hi1⟩, ⟨hf0, hf1⟩, ⟨ha0, ha1⟩, ⟨hz0, hz1⟩, heq⟩
  rw [hval] at heq
  linarith

/-- C8 amended: the eviction score is a weighted composite of *raw*
(unnormalized) signals — `0.3·age + 0.4·idle + 0.2·1/(accessCount+1) +
0.1·size/1024 − 0.3·frequency` with hard-coded weights (`CacheOptions`
carries no weight configuration) — and is unbounded above, so it is not
confined to `[0,1]`: for a never-accessed entry of age `n` it equals
`0.7·n + 0.2`, which exceeds any bound. -/
theorem score_unnormalized_unbounded :
    (∀ n : Nat, JSNum.toRat (entryScore [] n "k" zeroEntry)
        = (7 * n) / 10 + 1 / 5)
    ∧ ∀ B : ℚ, ∃ n : Nat,
        B ≤ JSNum.toRat (entryScore [] n "k" zeroEntry) := by
  refine ⟨score_closed_form, ?_⟩
  intro B
  obtain ⟨m, hm⟩ := exists_nat_ge B
  refine ⟨10 * m, ?_⟩
  rw [score_closed_form]
  have hm0 : (0 : ℚ) ≤ (m : ℚ) := Nat.cast_nonneg m
  push_cast
  linarith

/-- C10 (implicit — eviction fires on replacement): a `set` on a store at
or over the `maxSize` budget runs the batch eviction (removing exactly
`⌈entryCount * 0.2⌉` entries, strictly shrinking a nonempty store) even
when the key being set is already present, and then installs the new
binding on the post-eviction store. -/
theorem eviction_fires_on_replacement {T : Type} (s : SmartCache T)
    (calcSize : T → Nat) (k : String) (v : T) (tg : Option (List String))
    (now : Nat) (hwf : s.WF) (hfull : s.maxSize ≤ s.cache.length)
    (hmem : k ∈ keysOf s.cache) :
    (s.set calcSize k v tg now).cache
      = mapSet (s.intelligentEviction now).cache k
          ⟨v, now, 0, now, calcSize v, tg⟩
    ∧ (s.intelligentEviction now).cache.length
        = s.cache.length - evictBatch s.cache.length
    ∧ (0 < s.cache.length →
        (s.intelligentEviction now).cache.length < s.cache.length) := by
  refine ⟨?_, length_intelligentEviction s now hwf, ?_⟩
  · rw [set_cache_eq, if_pos hfull]
  · intro hpos
    have h1 := length_intelligentEviction s now hwf
    have h2 := evictBatch_pos s.cache.length hpos
    omega

/-- C10 witness: overwriting the already-present key `a` in the full
capacity-3 store `scnAccessed` still triggers the eviction pass. -/
theorem eviction_fires_on_replacement_witness :
    (scnAccessed.set sizeFn "a" 99 none 9).cache
      = mapSet (scnAccessed.intelligentEviction 9).cache "a"
          ⟨99, 9, 0, 9, sizeFn 99, none⟩
    ∧ (scnAccessed.intelligentEviction 9).cache.length
        = scnAccessed.cache.length - evictBatch scnAccessed.cache.length
    ∧ (scnAccessed.intelligentEviction 9).cache.length
        < scnAccessed.cache.length := by
  have h := eviction_fires_on_replacement scnAccessed sizeFn "a" 99 none 9
    (by decide) (by decide) (by decide)
  exact ⟨h.1, h.2.1, h.2.2 (by decide)⟩

end AdvDevUtils
